import Mathlib

/-!
Verification of the SpecialAVLTree repository.

The development shallowly embeds the two source files:

* `src/BinarySearch.cpp` — an iterative binary search over a sorted
  `vector<int>` that records every probed index ("path") and uses the
  upper-middle probe `mid = (low + high + 1) / 2`.

* `src/a02_V5.cpp` — the "Special AVL" tree: an `AVLTree<int>` keeping a
  sorted vector `sortedElements` of unique keys and rebuilding a perfectly
  balanced BST from it after every `insert`/`remove`; plus `searchBST`,
  `getSearchPath`, and an in-order traversal.

Machine `int`s are modelled as `Int`.  Every division performed by the
program has non-negative operands (`start`, `end`, `low`, `high` are
non-negative whenever a division is reached), where C++ truncating division
agrees with Lean's `/` on `Int`; `Int` also ignores 32-bit overflow, which
no claim concerns.  `vector` indexing `v[mid]` is modelled by
`List.getD v mid.toNat 0`; every access the program performs is in bounds
(proved below for the binary search), so the default is never observed.
-/

/-- One tree vertex, mirroring `AVLNode<T>` of `a02_V5.cpp`: a key, two
child links (absent children are `nil`, i.e. `nullptr`), and the stored
`height` field. -/
inductive AVLNode where
  | nil : AVLNode
  | node (key : Int) (left : AVLNode) (right : AVLNode) (height : Nat) : AVLNode
  deriving DecidableEq, Repr

namespace AVLNode

/-- Key stored at a (non-null) vertex; `nullptr` has no key in C++, the
default 0 is never observed. -/
def key : AVLNode → Int
  | nil => 0
  | node k _ _ _ => k

/-- Stored-height accessor `AVLTree::height`: 0 for `nullptr`, otherwise the
node's `height` field. -/
def height : AVLNode → Nat
  | nil => 0
  | node _ _ _ h => h

/-- Actual height of the tree shape (independent of the stored fields):
0 for an absent tree, otherwise 1 + max of the children's actual heights. -/
def actualHeight : AVLNode → Nat
  | nil => 0
  | node _ l r _ => 1 + max (actualHeight l) (actualHeight r)

/-- In-order traversal `AVLTree::inorder` (the key sequence it prints). -/
def inorder : AVLNode → List Int
  | nil => []
  | node k l r _ => inorder l ++ k :: inorder r

end AVLNode

/-- Root-index selection of `AVLTree::buildBalancedTree`
(`a02_V5.cpp` line 67): `int mid = (start + end + 1) / 2`. -/
def rootIndex (start e : Int) : Int := (start + e + 1) / 2

/-- Probe-index selection of `binarySearch` (`BinarySearch.cpp` line 13):
`int mid = (low + high + 1) / 2`. -/
def probeIndex (low high : Int) : Int := (low + high + 1) / 2

/-- Model of `AVLTree::buildBalancedTree(start, end)`: build a perfectly
balanced BST from `sortedElements[start..end]` (inclusive), choosing the
upper middle as root, and store `1 + max(height(left), height(right))` in
the `height` field. -/
def buildBalancedTree (v : List Int) (start e : Int) : AVLNode :=
  if start > e then .nil
  else
    let mid := rootIndex start e
    let l := buildBalancedTree v start (mid - 1)
    let r := buildBalancedTree v (mid + 1) e
    .node (v.getD mid.toNat 0) l r (1 + max l.height r.height)
termination_by (e + 1 - start).toNat
decreasing_by
  · simp only [rootIndex] at *; omega
  · simp only [rootIndex] at *; omega

/-- Sorted-vector insertion step of `AVLTree::insertRebuild`:
`std::lower_bound` walks past the elements `< key`; if the element found is
not equal to `key`, insert `key` there, otherwise leave the vector alone. -/
def insertKey (key : Int) : List Int → List Int
  | [] => [key]
  | x :: xs =>
    if x < key then x :: insertKey key xs
    else if x = key then x :: xs
    else key :: x :: xs

/-- Sorted-vector erasure step of `AVLTree::deleteRebuild`:
`std::lower_bound` walks past the elements `< key`; if the element found
equals `key`, erase it, otherwise leave the vector alone. -/
def deleteKey (key : Int) : List Int → List Int
  | [] => []
  | x :: xs =>
    if x < key then x :: deleteKey key xs
    else if x = key then xs
    else x :: xs

/-- Model of `AVLTree::searchBST`: standard BST descent. -/
def searchBST (n : AVLNode) (key : Int) : Bool :=
  match n with
  | .nil => false
  | .node k l r _ =>
    if k = key then true
    else if key < k then searchBST l key
    else searchBST r key

/-- Model of the loop of `AVLTree::getSearchPath`: record every visited
node, stop at a key match (inclusive) or when the required child is absent. -/
def searchPathFrom (key : Int) : AVLNode → List AVLNode
  | .nil => []
  | .node k l r h =>
    .node k l r h ::
      (if k = key then []
       else if key < k then searchPathFrom key l
       else searchPathFrom key r)

/-- State of an `AVLTree<int>`: the root pointer and the sorted vector
`sortedElements`. -/
structure AVLTree where
  root : AVLNode
  sortedElements : List Int
  deriving DecidableEq, Repr

namespace AVLTree

/-- Freshly constructed tree: `root(nullptr)`, empty vector. -/
def empty : AVLTree := ⟨.nil, []⟩

/-- Public `AVLTree::insert`, via `insertRebuild`: update the sorted
vector, then rebuild the whole tree from it. -/
def insert (t : AVLTree) (key : Int) : AVLTree :=
  let s := insertKey key t.sortedElements
  ⟨buildBalancedTree s 0 ((s.length : Int) - 1), s⟩

/-- Public `AVLTree::remove`, via `deleteRebuild`: update the sorted
vector; if it became empty the root is `nullptr`, otherwise rebuild. -/
def remove (t : AVLTree) (key : Int) : AVLTree :=
  let s := deleteKey key t.sortedElements
  if s.isEmpty then ⟨.nil, s⟩
  else ⟨buildBalancedTree s 0 ((s.length : Int) - 1), s⟩

/-- Public `AVLTree::search`. -/
def search (t : AVLTree) (key : Int) : Bool := searchBST t.root key

/-- Public `AVLTree::getSearchPath`. -/
def getSearchPath (t : AVLTree) (key : Int) : List AVLNode :=
  searchPathFrom key t.root

end AVLTree

/-- Found-check performed by the driving code in `main`
(`a02_V5.cpp` line 406): `!path.empty() && path.back()->key == searchVal`. -/
def driverFound (t : AVLTree) (searchVal : Int) : Bool :=
  let path := t.getSearchPath searchVal
  match path.getLast? with
  | none => false
  | some n => n.key == searchVal

/-- One mutating request sent to the tree by a caller. -/
inductive Op where
  | ins (k : Int) : Op
  | del (k : Int) : Op
  deriving DecidableEq, Repr

/-- Apply one request. -/
def applyOp (t : AVLTree) : Op → AVLTree
  | .ins k => t.insert k
  | .del k => t.remove k

/-- Apply a sequence of insert/remove requests starting from `t`. -/
def applyOps (t : AVLTree) (ops : List Op) : AVLTree := ops.foldl applyOp t

/-- Model of `binarySearch`'s loop (`BinarySearch.cpp` lines 11-32), with the
visited-index vector `path` threaded through; returns the C++ function's
return value paired with the final path (which the C++ prints). -/
def binarySearchLoop (arr : List Int) (target : Int) (low high : Int)
    (path : List Int) : Int × List Int :=
  if low ≤ high then
    let mid := probeIndex low high
    let path1 := path ++ [mid]
    if arr.getD mid.toNat 0 = target then (mid, path1)
    else if arr.getD mid.toNat 0 < target then
      binarySearchLoop arr target (mid + 1) high path1
    else
      binarySearchLoop arr target low (mid - 1) path1
  else (-1, path)
termination_by (high + 1 - low).toNat
decreasing_by
  · simp only [probeIndex] at *; omega
  · simp only [probeIndex] at *; omega

/-- Model of `binarySearch(arr, target)`: `low = 0`, `high = arr.size() - 1`,
empty path, then the loop. -/
def binarySearch (arr : List Int) (target : Int) : Int × List Int :=
  binarySearchLoop arr target 0 ((arr.length : Int) - 1) []

/-! ## Sorted-vector lemmas -/

theorem mem_insertKey (y k : Int) (s : List Int) :
    y ∈ insertKey k s ↔ y = k ∨ y ∈ s := by
  induction s with
  | nil => simp [insertKey]
  | cons x xs ih =>
    simp only [insertKey]
    split
    · rw [List.mem_cons, List.mem_cons, ih]
      tauto
    · split
      · next hx => subst hx; simp only [List.mem_cons]; tauto
      · rw [List.mem_cons, List.mem_cons]

theorem sorted_insertKey {k : Int} {s : List Int} (hs : s.Sorted (· < ·)) :
    (insertKey k s).Sorted (· < ·) := by
  induction s with
  | nil => simp [insertKey]
  | cons x xs ih =>
    rw [List.sorted_cons] at hs
    obtain ⟨hx, hxs⟩ := hs
    simp only [insertKey]
    split
    · next hlt =>
      rw [List.sorted_cons]
      refine ⟨fun b hb => ?_, ih hxs⟩
      rcases (mem_insertKey b k xs).1 hb with h | h
      · exact h ▸ hlt
      · exact hx b h
    · next hge =>
      split
      · exact List.sorted_cons.2 ⟨hx, hxs⟩
      · next hne =>
        rw [List.sorted_cons]
        refine ⟨fun b hb => ?_, List.sorted_cons.2 ⟨hx, hxs⟩⟩
        rcases List.mem_cons.1 hb with rfl | h
        · omega
        · exact lt_trans (by omega) (hx b h)

theorem deleteKey_sublist (k : Int) (s : List Int) :
    List.Sublist (deleteKey k s) s := by
  induction s with
  | nil => simp [deleteKey]
  | cons x xs ih =>
    simp only [deleteKey]
    split
    · exact List.Sublist.cons₂ x ih
    · split
      · exact List.sublist_cons_self x xs
      · exact List.Sublist.refl _

theorem sorted_deleteKey {k : Int} {s : List Int} (hs : s.Sorted (· < ·)) :
    (deleteKey k s).Sorted (· < ·) :=
  List.Pairwise.sublist (deleteKey_sublist k s) hs

theorem insertKey_of_mem {k : Int} {s : List Int} (hs : s.Sorted (· < ·))
    (h : k ∈ s) : insertKey k s = s := by
  induction s with
  | nil => cases h
  | cons x xs ih =>
    rw [List.sorted_cons] at hs
    simp only [insertKey]
    rcases List.mem_cons.1 h with rfl | hmem
    · rw [if_neg (lt_irrefl k), if_pos rfl]
    · rw [if_pos (hs.1 k hmem), ih hs.2 hmem]

theorem deleteKey_of_not_mem {k : Int} {s : List Int} (h : k ∉ s) :
    deleteKey k s = s := by
  induction s with
  | nil => rfl
  | cons x xs ih =>
    simp only [List.mem_cons, not_or] at h
    simp only [deleteKey]
    split
    · rw [ih h.2]
    · rw [if_neg (fun hx => h.1 hx.symm)]

theorem deleteKey_insertKey {k : Int} {s : List Int} (h : k ∉ s) :
    deleteKey k (insertKey k s) = s := by
  induction s with
  | nil => simp [insertKey, deleteKey]
  | cons x xs ih =>
    simp only [List.mem_cons, not_or] at h
    simp only [insertKey]
    split
    · next hlt =>
      show deleteKey k (x :: insertKey k xs) = x :: xs
      simp only [deleteKey, if_pos hlt]
      rw [ih h.2]
    · rw [if_neg (fun hx => h.1 hx.symm)]
      show deleteKey k (k :: x :: xs) = x :: xs
      simp [deleteKey]

theorem insertKey_idem (k : Int) (s : List Int) :
    insertKey k (insertKey k s) = insertKey k s := by
  induction s with
  | nil => simp [insertKey]
  | cons x xs ih =>
    by_cases h1 : x < k
    · show insertKey k (if x < k then x :: insertKey k xs
        else if x = k then x :: xs else k :: x :: xs) = _
      rw [if_pos h1]
      show (if x < k then x :: insertKey k (insertKey k xs)
        else if x = k then x :: insertKey k xs
        else k :: x :: insertKey k xs) = _
      rw [if_pos h1, ih]
      simp only [insertKey, if_pos h1]
    · by_cases h2 : x = k
      · simp only [insertKey, if_neg h1, if_pos h2]
      · simp only [insertKey, if_neg h1, if_neg h2]
        simp [lt_irrefl]

/-! ## One-step unfolding of the well-founded recursions -/

theorem buildBalancedTree_unfold (v : List Int) (start e : Int) :
    buildBalancedTree v start e =
      if start > e then .nil
      else
        .node (v.getD (rootIndex start e).toNat 0)
          (buildBalancedTree v start (rootIndex start e - 1))
          (buildBalancedTree v (rootIndex start e + 1) e)
          (1 + max (buildBalancedTree v start (rootIndex start e - 1)).height
                   (buildBalancedTree v (rootIndex start e + 1) e).height) := by
  rw [buildBalancedTree.eq_def]

theorem binarySearchLoop_unfold (arr : List Int) (target low high : Int)
    (path : List Int) :
    binarySearchLoop arr target low high path =
      if low ≤ high then
        if arr.getD (probeIndex low high).toNat 0 = target then
          (probeIndex low high, path ++ [probeIndex low high])
        else if arr.getD (probeIndex low high).toNat 0 < target then
          binarySearchLoop arr target (probeIndex low high + 1) high
            (path ++ [probeIndex low high])
        else
          binarySearchLoop arr target low (probeIndex low high - 1)
            (path ++ [probeIndex low high])
      else (-1, path) := by
  rw [binarySearchLoop.eq_def]

/-! ## In-order traversal of the rebuilt tree -/

/-- The inclusive slice `v[start..e]` of the sorted vector that
`buildBalancedTree(start, e)` is specified to cover. -/
def sliceI (v : List Int) (start e : Int) : List Int :=
  (v.drop start.toNat).take (e + 1 - start).toNat

theorem slice_split_nat (v : List Int) (s m e : Nat) (hsm : s ≤ m) (hme : m ≤ e)
    (hlen : m < v.length) :
    (v.drop s).take (e + 1 - s) =
      (v.drop s).take (m - s) ++ v.getD m 0 :: (v.drop (m + 1)).take (e - m) := by
  have h1 : e + 1 - s = (m - s) + (e + 1 - m) := by omega
  rw [h1, List.take_add]
  congr 1
  have h2 : (v.drop s).drop (m - s) = v.drop m := by
    rw [List.drop_drop]
    congr 1
    omega
  rw [h2]
  have h3 : e + 1 - m = 1 + (e - m) := by omega
  have h4 : (v.drop m).take 1 = [v.getD m 0] := by
    rw [List.getD_eq_getElem v 0 hlen, List.drop_eq_getElem_cons hlen,
      List.take_succ_cons, List.take_zero]
  have h5 : (v.drop m).drop 1 = v.drop (m + 1) := by
    rw [List.drop_drop]
  rw [h3, List.take_add, h4, h5]
  rfl

theorem buildBalancedTree_inorder (v : List Int) :
    ∀ (n : Nat) (start e : Int), (e + 1 - start).toNat = n → 0 ≤ start →
      e < (v.length : Int) →
      (buildBalancedTree v start e).inorder = sliceI v start e := by
  intro n
  induction n using Nat.strong_induction_on with
  | _ n ih =>
    intro start e hn hs he
    rw [buildBalancedTree_unfold]
    split
    · next hgt =>
      have h0 : (e + 1 - start).toNat = 0 := by omega
      simp only [AVLNode.inorder, sliceI, h0, List.take_zero]
    · next hgt =>
      have hle : start ≤ e := by omega
      have hb : start ≤ rootIndex start e ∧ rootIndex start e ≤ e := by
        simp only [rootIndex]; omega
      simp only [AVLNode.inorder]
      rw [ih (rootIndex start e - 1 + 1 - start).toNat (by omega) start
            (rootIndex start e - 1) rfl hs (by omega),
          ih (e + 1 - (rootIndex start e + 1)).toNat (by omega)
            (rootIndex start e + 1) e rfl (by omega) he]
      have e1 : (rootIndex start e - 1 + 1 - start).toNat
          = (rootIndex start e).toNat - start.toNat := by omega
      have e2 : (rootIndex start e + 1).toNat = (rootIndex start e).toNat + 1 := by
        omega
      have e3 : (e + 1 - (rootIndex start e + 1)).toNat
          = e.toNat - (rootIndex start e).toNat := by omega
      have e4 : (e + 1 - start).toNat = e.toNat + 1 - start.toNat := by omega
      simp only [sliceI, e1, e2, e3, e4]
      exact (slice_split_nat v start.toNat (rootIndex start e).toNat e.toNat
        (by omega) (by omega) (by omega)).symm

/-! ## Heights and balance of the rebuilt tree -/

/-- Every stored `height` field in the tree equals
`1 + max(height(left), height(right))` with absent-child height 0, exactly
as `buildBalancedTree` assigns it. -/
def heightsOk : AVLNode → Prop
  | .nil => True
  | .node _ l r h => h = 1 + max l.height r.height ∧ heightsOk l ∧ heightsOk r

/-- At every node, the heights of the two subtrees differ by at most 1. -/
def balancedAll : AVLNode → Prop
  | .nil => True
  | .node _ l r _ =>
    l.actualHeight ≤ r.actualHeight + 1 ∧ r.actualHeight ≤ l.actualHeight + 1 ∧
      balancedAll l ∧ balancedAll r

theorem height_eq_actual {t : AVLNode} (h : heightsOk t) :
    t.height = t.actualHeight := by
  induction t with
  | nil => rfl
  | node k l r hh ihl ihr =>
    obtain ⟨h1, h2, h3⟩ := h
    show hh = 1 + max l.actualHeight r.actualHeight
    rw [h1, ihl h2, ihr h3]

theorem buildBalancedTree_heightsOk (v : List Int) :
    ∀ (n : Nat) (start e : Int), (e + 1 - start).toNat = n →
      heightsOk (buildBalancedTree v start e) := by
  intro n
  induction n using Nat.strong_induction_on with
  | _ n ih =>
    intro start e hn
    rw [buildBalancedTree_unfold]
    split
    · trivial
    · next hgt =>
      have hb : start ≤ rootIndex start e ∧ rootIndex start e ≤ e := by
        simp only [rootIndex]; omega
      exact ⟨rfl,
        ih (rootIndex start e - 1 + 1 - start).toNat (by omega) _ _ rfl,
        ih (e + 1 - (rootIndex start e + 1)).toNat (by omega) _ _ rfl⟩

theorem clog2_succ_eq (n : Nat) (h : 1 ≤ n) :
    Nat.clog 2 (n + 1) = Nat.clog 2 (n / 2 + 1) + 1 := by
  rw [Nat.clog_of_two_le (by norm_num) (by omega)]
  congr 2
  omega

theorem clog2_succ_le (m : Nat) (h : 1 ≤ m) :
    Nat.clog 2 (m + 1) ≤ Nat.clog 2 m + 1 := by
  have h2 : Nat.clog 2 (2 * m) = Nat.clog 2 m + 1 := by
    rw [Nat.clog_of_two_le (by norm_num) (by omega)]
    congr 2
    omega
  calc Nat.clog 2 (m + 1) ≤ Nat.clog 2 (2 * m) := Nat.clog_mono_right 2 (by omega)
  _ = Nat.clog 2 m + 1 := h2

theorem buildBalancedTree_actualHeight (v : List Int) :
    ∀ (n : Nat) (start e : Int), (e + 1 - start).toNat = n →
      (buildBalancedTree v start e).actualHeight = Nat.clog 2 (n + 1) := by
  intro n
  induction n using Nat.strong_induction_on with
  | _ n ih =>
    intro start e hn
    rw [buildBalancedTree_unfold]
    split
    · next hgt =>
      have h0 : n = 0 := by omega
      subst h0
      simp [AVLNode.actualHeight, Nat.clog]
    · next hgt =>
      have hb : start ≤ rootIndex start e ∧ rootIndex start e ≤ e := by
        simp only [rootIndex]; omega
      have hn1 : 1 ≤ n := by omega
      have hl : (rootIndex start e - 1 + 1 - start).toNat = n / 2 := by
        simp only [rootIndex] at *; omega
      have hr : (e + 1 - (rootIndex start e + 1)).toNat = n - 1 - n / 2 := by
        simp only [rootIndex] at *; omega
      simp only [AVLNode.actualHeight]
      rw [ih (rootIndex start e - 1 + 1 - start).toNat (by omega) _ _ rfl,
        ih (e + 1 - (rootIndex start e + 1)).toNat (by omega) _ _ rfl, hl, hr]
      have hmax : max (Nat.clog 2 (n / 2 + 1)) (Nat.clog 2 (n - 1 - n / 2 + 1))
          = Nat.clog 2 (n / 2 + 1) :=
        max_eq_left (Nat.clog_mono_right 2 (by omega))
      rw [hmax, clog2_succ_eq n hn1]
      omega

theorem buildBalancedTree_balanced (v : List Int) :
    ∀ (n : Nat) (start e : Int), (e + 1 - start).toNat = n →
      balancedAll (buildBalancedTree v start e) := by
  intro n
  induction n using Nat.strong_induction_on with
  | _ n ih =>
    intro start e hn
    rw [buildBalancedTree_unfold]
    split
    · trivial
    · next hgt =>
      have hb : start ≤ rootIndex start e ∧ rootIndex start e ≤ e := by
        simp only [rootIndex]; omega
      have hn1 : 1 ≤ n := by omega
      have hl : (rootIndex start e - 1 + 1 - start).toNat = n / 2 := by
        simp only [rootIndex] at *; omega
      have hr : (e + 1 - (rootIndex start e + 1)).toNat = n - 1 - n / 2 := by
        simp only [rootIndex] at *; omega
      have hhl := buildBalancedTree_actualHeight v (n / 2) start
        (rootIndex start e - 1) hl
      have hhr := buildBalancedTree_actualHeight v (n - 1 - n / 2)
        (rootIndex start e + 1) e hr
      refine ⟨?_, ?_, ih (n / 2) (by omega) _ _ hl,
        ih (n - 1 - n / 2) (by omega) _ _ hr⟩
      · rw [hhl, hhr]
        calc Nat.clog 2 (n / 2 + 1) ≤ Nat.clog 2 (n - 1 - n / 2 + 1 + 1) :=
              Nat.clog_mono_right 2 (by omega)
        _ ≤ Nat.clog 2 (n - 1 - n / 2 + 1) + 1 := clog2_succ_le _ (by omega)
      · rw [hhl, hhr]
        exact le_trans (Nat.clog_mono_right 2 (by omega)) (Nat.le_add_right _ 1)

/-! ## BST property, search and search path -/

/-- Structural binary-search-tree property: at every node all keys of the
left subtree are smaller and all keys of the right subtree larger. -/
def isBST : AVLNode → Prop
  | .nil => True
  | .node k l r _ =>
    (∀ x ∈ l.inorder, x < k) ∧ (∀ x ∈ r.inorder, k < x) ∧ isBST l ∧ isBST r

theorem isBST_of_sorted {t : AVLNode} (h : t.inorder.Sorted (· < ·)) :
    isBST t := by
  induction t with
  | nil => trivial
  | node k l r hh ihl ihr =>
    simp only [AVLNode.inorder] at h
    obtain ⟨h1, h2, h3⟩ := List.pairwise_append.1 h
    rw [List.pairwise_cons] at h2
    exact ⟨fun x hx => h3 x hx k (List.mem_cons_self k _), h2.1, ihl h1,
      ihr h2.2⟩

theorem searchBST_iff_mem {t : AVLNode} (h : isBST t) (key : Int) :
    searchBST t key = true ↔ key ∈ t.inorder := by
  induction t with
  | nil => simp [searchBST, AVLNode.inorder]
  | node k l r hh ihl ihr =>
    obtain ⟨hl, hr, hbl, hbr⟩ := h
    simp only [searchBST, AVLNode.inorder, List.mem_append, List.mem_cons]
    split
    · next heq => simp [heq]
    · next hne =>
      split
      · next hlt =>
        rw [ihl hbl]
        constructor
        · exact fun hm => Or.inl hm
        · rintro (hm | hm | hm)
          · exact hm
          · omega
          · exact absurd (hr key hm) (by omega)
      · next hge =>
        rw [ihr hbr]
        constructor
        · exact fun hm => Or.inr (Or.inr hm)
        · rintro (hm | hm | hm)
          · exact absurd (hl key hm) (by omega)
          · omega
          · exact hm

theorem searchBST_eq_false {t : AVLNode} (h : isBST t) (key : Int)
    (hm : key ∉ t.inorder) : searchBST t key = false := by
  cases hb : searchBST t key
  · rfl
  · exact absurd ((searchBST_iff_mem h key).1 hb) hm

theorem searchPathFrom_ne_nil {t : AVLNode} (h : t ≠ .nil) (key : Int) :
    searchPathFrom key t ≠ [] := by
  cases t with
  | nil => exact absurd rfl h
  | node k l r hh => simp [searchPathFrom]

theorem getLast?_cons_of_ne_nil {α : Type} (a : α) {l : List α} (h : l ≠ []) :
    (a :: l).getLast? = l.getLast? := by
  cases l with
  | nil => exact absurd rfl h
  | cons b m => simp [List.getLast?]

theorem searchPathFrom_last {t : AVLNode} (h : isBST t) (key : Int) :
    (key ∈ t.inorder →
      ((searchPathFrom key t).map AVLNode.key).getLast? = some key)
    ∧ (key ∉ t.inorder → t ≠ .nil →
        ∃ q, ((searchPathFrom key t).map AVLNode.key).getLast? = some q ∧
          q ≠ key) := by
  induction t with
  | nil =>
    refine ⟨fun hm => absurd hm (by simp [AVLNode.inorder]), fun _ hne => ?_⟩
    exact absurd rfl hne
  | node k l r hh ihl ihr =>
    obtain ⟨hl, hr, hbl, hbr⟩ := h
    by_cases heq : k = key
    · subst heq
      refine ⟨fun _ => ?_, fun hm _ => absurd (by simp [AVLNode.inorder]) hm⟩
      simp [searchPathFrom, AVLNode.key]
    · by_cases hlt : key < k
      · -- descend left
        have hpath : searchPathFrom key (.node k l r hh)
            = .node k l r hh :: searchPathFrom key l := by
          simp [searchPathFrom, heq, hlt]
        have hmem : key ∈ (AVLNode.node k l r hh).inorder ↔ key ∈ l.inorder := by
          simp only [AVLNode.inorder, List.mem_append, List.mem_cons]
          constructor
          · rintro (hm | hm | hm)
            · exact hm
            · omega
            · exact absurd (hr key hm) (by omega)
          · exact fun hm => Or.inl hm
        constructor
        · intro hm
          rw [hmem] at hm
          have hlnil : l ≠ .nil := by
            intro hn
            rw [hn] at hm
            simp [AVLNode.inorder] at hm
          rw [hpath, List.map_cons,
            getLast?_cons_of_ne_nil _
              (by
                intro hn
                exact searchPathFrom_ne_nil hlnil key (List.map_eq_nil_iff.1 hn))]
          exact (ihl hbl).1 hm
        · intro hm _
          rw [hmem] at hm
          by_cases hlnil : l = AVLNode.nil
          · subst hlnil
            rw [hpath]
            exact ⟨k, by simp [searchPathFrom, AVLNode.key], heq⟩
          · obtain ⟨q, hq1, hq2⟩ := (ihl hbl).2 hm hlnil
            rw [hpath, List.map_cons,
              getLast?_cons_of_ne_nil _
                (by
                  intro hn
                  exact searchPathFrom_ne_nil hlnil key (List.map_eq_nil_iff.1 hn))]
            exact ⟨q, hq1, hq2⟩
      · -- descend right
        have hgt : k < key := by omega
        have hpath : searchPathFrom key (.node k l r hh)
            = .node k l r hh :: searchPathFrom key r := by
          simp [searchPathFrom, heq, hlt]
        have hmem : key ∈ (AVLNode.node k l r hh).inorder ↔ key ∈ r.inorder := by
          simp only [AVLNode.inorder, List.mem_append, List.mem_cons]
          constructor
          · rintro (hm | hm | hm)
            · exact absurd (hl key hm) (by omega)
            · omega
            · exact hm
          · exact fun hm => Or.inr (Or.inr hm)
        constructor
        · intro hm
          rw [hmem] at hm
          have hrnil : r ≠ .nil := by
            intro hn
            rw [hn] at hm
            simp [AVLNode.inorder] at hm
          rw [hpath, List.map_cons,
            getLast?_cons_of_ne_nil _
              (by
                intro hn
                exact searchPathFrom_ne_nil hrnil key (List.map_eq_nil_iff.1 hn))]
          exact (ihr hbr).1 hm
        · intro hm _
          rw [hmem] at hm
          by_cases hrnil : r = AVLNode.nil
          · subst hrnil
            rw [hpath]
            exact ⟨k, by simp [searchPathFrom, AVLNode.key], heq⟩
          · obtain ⟨q, hq1, hq2⟩ := (ihr hbr).2 hm hrnil
            rw [hpath, List.map_cons,
              getLast?_cons_of_ne_nil _
                (by
                  intro hn
                  exact searchPathFrom_ne_nil hrnil key (List.map_eq_nil_iff.1 hn))]
            exact ⟨q, hq1, hq2⟩

/-! ## The representation invariant of the tree state -/

/-- Representation invariant maintained by `AVLTree`: the vector is sorted
(strictly ascending, hence duplicate-free) and the root is the balanced
rebuild of the whole vector.  It holds in every reachable state. -/
def TreeInv (t : AVLTree) : Prop :=
  t.sortedElements.Sorted (· < ·) ∧
    t.root = buildBalancedTree t.sortedElements 0 ((t.sortedElements.length : Int) - 1)

theorem buildBalancedTree_nil (v : List Int) {start e : Int} (h : start > e) :
    buildBalancedTree v start e = .nil := by
  rw [buildBalancedTree_unfold, if_pos h]

theorem buildBalancedTree_inorder_full (v : List Int) :
    (buildBalancedTree v 0 ((v.length : Int) - 1)).inorder = v := by
  rw [buildBalancedTree_inorder v (((v.length : Int) - 1) + 1 - 0).toNat 0
    ((v.length : Int) - 1) rfl (le_refl 0) (by omega)]
  have h1 : (((v.length : Int) - 1) + 1 - 0).toNat = v.length := by omega
  rw [sliceI, h1]
  simp only [Int.toNat_zero, List.drop_zero, List.take_length]

theorem inv_empty : TreeInv AVLTree.empty := by
  refine ⟨List.sorted_nil, ?_⟩
  show AVLNode.nil = buildBalancedTree [] 0 ((([] : List Int).length : Int) - 1)
  rw [buildBalancedTree_nil [] (by norm_num)]

theorem inv_insert {t : AVLTree} (h : TreeInv t) (k : Int) : TreeInv (t.insert k) :=
  ⟨sorted_insertKey h.1, rfl⟩

theorem inv_remove {t : AVLTree} (h : TreeInv t) (k : Int) : TreeInv (t.remove k) := by
  have hsorted : (deleteKey k t.sortedElements).Sorted (· < ·) :=
    sorted_deleteKey h.1
  simp only [AVLTree.remove]
  split
  · next he =>
    have hnil : deleteKey k t.sortedElements = [] := by
      rwa [List.isEmpty_iff] at he
    refine ⟨hsorted, ?_⟩
    show AVLNode.nil = _
    rw [hnil]
    exact (buildBalancedTree_nil [] (by norm_num)).symm
  · exact ⟨hsorted, rfl⟩

theorem inv_applyOp {t : AVLTree} (h : TreeInv t) (op : Op) : TreeInv (applyOp t op) := by
  cases op with
  | ins k => exact inv_insert h k
  | del k => exact inv_remove h k

theorem inv_applyOps (ops : List Op) :
    ∀ (t : AVLTree), TreeInv t → TreeInv (applyOps t ops) := by
  induction ops with
  | nil => exact fun t h => h
  | cons op ops ih => exact fun t h => ih (applyOp t op) (inv_applyOp h op)

/-! ## Properties of the flat binary search loop -/

theorem binarySearchLoop_path_extend (arr : List Int) (target : Int) :
    ∀ (n : Nat) (low high : Int) (p : List Int), (high + 1 - low).toNat = n →
      ∃ q, (binarySearchLoop arr target low high p).2 = p ++ q := by
  intro n
  induction n using Nat.strong_induction_on with
  | _ n ih =>
    intro low high p hn
    rw [binarySearchLoop_unfold]
    split
    · next hle =>
      have hb : low ≤ probeIndex low high ∧ probeIndex low high ≤ high := by
        simp only [probeIndex]; omega
      split
      · exact ⟨[probeIndex low high], rfl⟩
      · split
        · obtain ⟨q, hq⟩ := ih (high + 1 - (probeIndex low high + 1)).toNat
            (by omega) (probeIndex low high + 1) high
            (p ++ [probeIndex low high]) rfl
          refine ⟨probeIndex low high :: q, ?_⟩
          rw [hq, List.append_assoc]
          rfl
        · obtain ⟨q, hq⟩ := ih (probeIndex low high - 1 + 1 - low).toNat
            (by omega) low (probeIndex low high - 1)
            (p ++ [probeIndex low high]) rfl
          refine ⟨probeIndex low high :: q, ?_⟩
          rw [hq, List.append_assoc]
          rfl
    · exact ⟨[], by simp⟩

theorem binarySearchLoop_bounds (arr : List Int) (target : Int) :
    ∀ (n : Nat) (low high : Int) (p : List Int), (high + 1 - low).toNat = n →
      0 ≤ low → high < (arr.length : Int) →
      (∀ i ∈ p, 0 ≤ i ∧ i < (arr.length : Int)) →
      ∀ i ∈ (binarySearchLoop arr target low high p).2,
        0 ≤ i ∧ i < (arr.length : Int) := by
  intro n
  induction n using Nat.strong_induction_on with
  | _ n ih =>
    intro low high p hn hlow hhigh hp
    rw [binarySearchLoop_unfold]
    split
    · next hle =>
      have hb : low ≤ probeIndex low high ∧ probeIndex low high ≤ high := by
        simp only [probeIndex]; omega
      have hp1 : ∀ i ∈ p ++ [probeIndex low high],
          0 ≤ i ∧ i < (arr.length : Int) := by
        intro i hi
        rcases List.mem_append.1 hi with hi | hi
        · exact hp i hi
        · have hie : i = probeIndex low high := List.mem_singleton.1 hi
          subst hie
          omega
      split
      · exact hp1
      · split
        · exact ih (high + 1 - (probeIndex low high + 1)).toNat (by omega)
            (probeIndex low high + 1) high _ rfl (by omega) hhigh hp1
        · exact ih (probeIndex low high - 1 + 1 - low).toNat (by omega)
            low (probeIndex low high - 1) _ rfl hlow (by omega) hp1
    · exact hp

theorem binarySearchLoop_success (arr : List Int) (target : Int) :
    ∀ (n : Nat) (low high : Int) (p : List Int) (idx : Int) (path : List Int),
      (high + 1 - low).toNat = n → 0 ≤ low → high < (arr.length : Int) →
      binarySearchLoop arr target low high p = (idx, path) → idx ≠ -1 →
      0 ≤ idx ∧ idx < (arr.length : Int) ∧ arr.getD idx.toNat 0 = target ∧
        path.getLast? = some idx := by
  intro n
  induction n using Nat.strong_induction_on with
  | _ n ih =>
    intro low high p idx path hn hlow hhigh heq hne
    rw [binarySearchLoop_unfold] at heq
    split at heq
    · next hle =>
      have hb : low ≤ probeIndex low high ∧ probeIndex low high ≤ high := by
        simp only [probeIndex]; omega
      split at heq
      · next hfound =>
        injection heq with h1 h2
        subst h1
        subst h2
        exact ⟨by omega, by omega, hfound, List.getLast?_concat _⟩
      · split at heq
        · exact ih (high + 1 - (probeIndex low high + 1)).toNat (by omega)
            (probeIndex low high + 1) high _ _ _ rfl (by omega) hhigh heq hne
        · exact ih (probeIndex low high - 1 + 1 - low).toNat (by omega)
            low (probeIndex low high - 1) _ _ _ rfl hlow (by omega) heq hne
    · next hgt =>
      injection heq with h1 h2
      exact absurd h1.symm hne

theorem sorted_getD_mono {arr : List Int} (hs : arr.Sorted (· < ·))
    {i j : Nat} (hij : i ≤ j) (hj : j < arr.length) :
    arr.getD i 0 ≤ arr.getD j 0 := by
  rcases Nat.eq_or_lt_of_le hij with heq | hlt
  · subst heq
    exact le_refl _
  · have hi : i < arr.length := lt_trans hlt hj
    rw [List.getD_eq_getElem arr 0 hi, List.getD_eq_getElem arr 0 hj]
    have := List.pairwise_iff_get.1 hs ⟨i, hi⟩ ⟨j, hj⟩ hlt
    simp only [List.get_eq_getElem] at this
    exact le_of_lt this

theorem binarySearchLoop_failure (arr : List Int) (target : Int)
    (hs : arr.Sorted (· < ·)) :
    ∀ (n : Nat) (low high : Int) (p : List Int), (high + 1 - low).toNat = n →
      0 ≤ low → high < (arr.length : Int) →
      (∀ j : Nat, j < arr.length → arr.getD j 0 = target →
        low ≤ (j : Int) ∧ (j : Int) ≤ high) →
      (binarySearchLoop arr target low high p).1 = -1 →
      ∀ x ∈ arr, x ≠ target := by
  intro n
  induction n using Nat.strong_induction_on with
  | _ n ih =>
    intro low high p hn hlow hhigh hinv hres
    rw [binarySearchLoop_unfold] at hres
    split at hres
    · next hle =>
      have hb : low ≤ probeIndex low high ∧ probeIndex low high ≤ high := by
        simp only [probeIndex]; omega
      split at hres
      · next hfound =>
        have hmid : probeIndex low high = -1 := hres
        omega
      · split at hres
        · next hltt =>
          refine ih (high + 1 - (probeIndex low high + 1)).toNat (by omega)
            (probeIndex low high + 1) high _ rfl (by omega) hhigh ?_ hres
          intro j hj hjt
          have hold := hinv j hj hjt
          by_cases hc : (j : Int) ≤ probeIndex low high
          · exfalso
            have hjm : j ≤ (probeIndex low high).toNat := by omega
            have hmlen : (probeIndex low high).toNat < arr.length := by omega
            have hmono := sorted_getD_mono hs hjm hmlen
            rw [hjt] at hmono
            omega
          · exact ⟨by omega, hold.2⟩
        · next hgtt =>
          refine ih (probeIndex low high - 1 + 1 - low).toNat (by omega)
            low (probeIndex low high - 1) _ rfl hlow (by omega) ?_ hres
          intro j hj hjt
          have hold := hinv j hj hjt
          by_cases hc : probeIndex low high ≤ (j : Int)
          · exfalso
            have hjm : (probeIndex low high).toNat ≤ j := by omega
            have hmono := sorted_getD_mono hs hjm hj
            rw [hjt] at hmono
            omega
          · exact ⟨hold.1, by omega⟩
    · next hgt =>
      intro x hx hxt
      obtain ⟨j, hj, hje⟩ := List.mem_iff_getElem.1 hx
      have hjt : arr.getD j 0 = target := by
        rw [List.getD_eq_getElem arr 0 hj, hje, hxt]
      have := hinv j hj hjt
      omega

/-! ## The flat search as worded by the specification -/

/-- Transcription of spec section 4.2 (for comparison with the code):
maintain `lo, hi`; while `lo ≤ hi` compute `mid` by the midpoint rule
`(lo + hi + 1) / 2`, append `mid` to `probePath`; if the element at `mid`
equals the target return success with `mid` and the path so far, if it is
less set `lo = mid + 1`, else set `hi = mid - 1`; on exhaustion (`lo > hi`)
return the not-found signal `-1` and the full probe path. -/
def flatSearchSpecLoop (sortedSequence : List Int) (target : Int)
    (lo hi : Int) (probePath : List Int) : Int × List Int :=
  if lo ≤ hi then
    let mid := (lo + hi + 1) / 2
    let probePath1 := probePath ++ [mid]
    if sortedSequence.getD mid.toNat 0 = target then (mid, probePath1)
    else if sortedSequence.getD mid.toNat 0 < target then
      flatSearchSpecLoop sortedSequence target (mid + 1) hi probePath1
    else
      flatSearchSpecLoop sortedSequence target lo (mid - 1) probePath1
  else (-1, probePath)
termination_by (hi + 1 - lo).toNat
decreasing_by
  · omega
  · omega

/-- Whole-sequence entry point of the spec's flat search. -/
def flatSearchSpec (sortedSequence : List Int) (target : Int) :
    Int × List Int :=
  flatSearchSpecLoop sortedSequence target 0
    ((sortedSequence.length : Int) - 1) []

theorem flatSearchSpecLoop_unfold (s : List Int) (target lo hi : Int)
    (p : List Int) :
    flatSearchSpecLoop s target lo hi p =
      if lo ≤ hi then
        if s.getD ((lo + hi + 1) / 2).toNat 0 = target then
          ((lo + hi + 1) / 2, p ++ [(lo + hi + 1) / 2])
        else if s.getD ((lo + hi + 1) / 2).toNat 0 < target then
          flatSearchSpecLoop s target ((lo + hi + 1) / 2 + 1) hi
            (p ++ [(lo + hi + 1) / 2])
        else
          flatSearchSpecLoop s target lo ((lo + hi + 1) / 2 - 1)
            (p ++ [(lo + hi + 1) / 2])
      else (-1, p) := by
  rw [flatSearchSpecLoop.eq_def]

theorem binarySearchLoop_eq_specLoop (s : List Int) (target : Int) :
    ∀ (n : Nat) (lo hi : Int) (p : List Int), (hi + 1 - lo).toNat = n →
      binarySearchLoop s target lo hi p = flatSearchSpecLoop s target lo hi p := by
  intro n
  induction n using Nat.strong_induction_on with
  | _ n ih =>
    intro lo hi p hn
    rw [binarySearchLoop_unfold, flatSearchSpecLoop_unfold]
    simp only [probeIndex]
    by_cases hle : lo ≤ hi
    · rw [if_pos hle, if_pos hle]
      have hb : lo ≤ (lo + hi + 1) / 2 ∧ (lo + hi + 1) / 2 ≤ hi := by omega
      split
      · rfl
      · split
        · exact ih (hi + 1 - ((lo + hi + 1) / 2 + 1)).toNat (by omega) _ _ _ rfl
        · exact ih ((lo + hi + 1) / 2 - 1 + 1 - lo).toNat (by omega) _ _ _ rfl
    · rw [if_neg hle, if_neg hle]

theorem binarySearch_eq_flatSearchSpec (arr : List Int) (target : Int) :
    binarySearch arr target = flatSearchSpec arr target :=
  binarySearchLoop_eq_specLoop arr target
    (((arr.length : Int) - 1) + 1 - 0).toNat 0 ((arr.length : Int) - 1) [] rfl

/-! ## Concrete evaluations used by witnesses -/

theorem binarySearch_eval_single : binarySearch [5] 5 = (0, [0]) := by
  show binarySearchLoop [5] 5 0 ((([5] : List Int).length : Int) - 1) [] = (0, [0])
  rw [binarySearchLoop_unfold]
  norm_num [probeIndex]

theorem binarySearch_eval_pair : binarySearch [1, 2] 2 = (1, [1]) := by
  show binarySearchLoop [1, 2] 2 0 ((([1, 2] : List Int).length : Int) - 1) []
    = (1, [1])
  rw [binarySearchLoop_unfold]
  norm_num [probeIndex]

/-! ## The claims -/

/-- C1: after every sequence of insert/remove operations starting from the
empty tree, the in-order traversal of the tree equals the sortedElements
vector exactly, the tree is a valid BST over those keys, and at every node
the heights of the two subtrees differ by at most 1. -/
theorem claim_C1 (ops : List Op) :
    (applyOps AVLTree.empty ops).root.inorder
        = (applyOps AVLTree.empty ops).sortedElements
    ∧ isBST (applyOps AVLTree.empty ops).root
    ∧ balancedAll (applyOps AVLTree.empty ops).root := by
  obtain ⟨hsort, hroot⟩ := inv_applyOps ops AVLTree.empty inv_empty
  have hio : (applyOps AVLTree.empty ops).root.inorder
      = (applyOps AVLTree.empty ops).sortedElements := by
    rw [hroot]
    exact buildBalancedTree_inorder_full _
  refine ⟨hio, isBST_of_sorted (by rw [hio]; exact hsort), ?_⟩
  rw [hroot]
  exact buildBalancedTree_balanced _
    ((((applyOps AVLTree.empty ops).sortedElements.length : Int) - 1) + 1 - 0).toNat
    0 _ rfl

/-- C2: for any ascending-sorted list of `n` unique keys,
`buildBalancedTree(0, n-1)` produces a tree whose in-order traversal equals
the input list exactly, whose height is exactly `⌈log2(n+1)⌉`
(as stored height and as actual height), and whose every stored height field
is `1 + max` of the children's heights with absent-child height 0. -/
theorem claim_C2 (v : List Int) (hs : v.Sorted (· < ·)) :
    (buildBalancedTree v 0 ((v.length : Int) - 1)).inorder = v
    ∧ heightsOk (buildBalancedTree v 0 ((v.length : Int) - 1))
    ∧ (buildBalancedTree v 0 ((v.length : Int) - 1)).height
        = Nat.clog 2 (v.length + 1)
    ∧ (buildBalancedTree v 0 ((v.length : Int) - 1)).actualHeight
        = Nat.clog 2 (v.length + 1) := by
  have hok := buildBalancedTree_heightsOk v
    (((v.length : Int) - 1) + 1 - 0).toNat 0 ((v.length : Int) - 1) rfl
  have hh := buildBalancedTree_actualHeight v
    (((v.length : Int) - 1) + 1 - 0).toNat 0 ((v.length : Int) - 1) rfl
  have hlen : (((v.length : Int) - 1) + 1 - 0).toNat = v.length := by omega
  rw [hlen] at hh
  exact ⟨buildBalancedTree_inorder_full v, hok,
    (height_eq_actual hok).trans hh, hh⟩

theorem claim_C2_witness :
    (buildBalancedTree [1, 2, 3] 0 ((([1, 2, 3] : List Int).length : Int) - 1)).inorder
        = [1, 2, 3]
    ∧ heightsOk (buildBalancedTree [1, 2, 3] 0
        ((([1, 2, 3] : List Int).length : Int) - 1))
    ∧ (buildBalancedTree [1, 2, 3] 0
        ((([1, 2, 3] : List Int).length : Int) - 1)).height
        = Nat.clog 2 (([1, 2, 3] : List Int).length + 1)
    ∧ (buildBalancedTree [1, 2, 3] 0
        ((([1, 2, 3] : List Int).length : Int) - 1)).actualHeight
        = Nat.clog 2 (([1, 2, 3] : List Int).length + 1) :=
  claim_C2 [1, 2, 3] (by decide)

/-- C3: for all `lo ≤ hi` the midpoint of the inclusive range `[lo, hi]` is
deterministically `(lo + hi + 1) / 2` (so `midpoint(0,3) = 2` and
`midpoint(0,4) = 2`), and the flat binary search's probe selection and the
balanced-tree builder's root selection compute this same midpoint: the next
probe appended by the search loop on bounds `[lo, hi]` is `probeIndex lo hi`,
the root the builder places for `[lo, hi]` is the element at
`rootIndex lo hi`, and the two index rules agree. -/
theorem claim_C3 (lo hi : Int) (h : lo ≤ hi) :
    probeIndex lo hi = (lo + hi + 1) / 2
    ∧ rootIndex lo hi = (lo + hi + 1) / 2
    ∧ probeIndex lo hi = rootIndex lo hi
    ∧ probeIndex 0 3 = 2 ∧ probeIndex 0 4 = 2
    ∧ rootIndex 0 3 = 2 ∧ rootIndex 0 4 = 2
    ∧ (∀ (v : List Int) (target : Int) (p : List Int),
        ∃ rest, (binarySearchLoop v target lo hi p).2
          = p ++ probeIndex lo hi :: rest)
    ∧ (∀ v : List Int, ∃ l r hh,
        buildBalancedTree v lo hi
          = .node (v.getD (rootIndex lo hi).toNat 0) l r hh) := by
  refine ⟨rfl, rfl, rfl, by decide, by decide, by decide, by decide, ?_, ?_⟩
  · intro v target p
    rw [binarySearchLoop_unfold, if_pos h]
    have hb : lo ≤ probeIndex lo hi ∧ probeIndex lo hi ≤ hi := by
      simp only [probeIndex]; omega
    split
    · exact ⟨[], rfl⟩
    · split
      · obtain ⟨q, hq⟩ := binarySearchLoop_path_extend v target
          (hi + 1 - (probeIndex lo hi + 1)).toNat (probeIndex lo hi + 1) hi
          (p ++ [probeIndex lo hi]) rfl
        refine ⟨q, ?_⟩
        rw [hq, List.append_assoc]
        rfl
      · obtain ⟨q, hq⟩ := binarySearchLoop_path_extend v target
          (probeIndex lo hi - 1 + 1 - lo).toNat lo (probeIndex lo hi - 1)
          (p ++ [probeIndex lo hi]) rfl
        refine ⟨q, ?_⟩
        rw [hq, List.append_assoc]
        rfl
  · intro v
    rw [buildBalancedTree_unfold, if_neg (not_lt.2 h)]
    exact ⟨_, _, _, rfl⟩

theorem claim_C3_witness : probeIndex 0 1 = rootIndex 0 1 :=
  (claim_C3 0 1 (by decide)).2.2.1

/-- C4: for every ascending-sorted input sequence and target, the flat
binary search coincides with the loop specified in section 4.2 of the spec
(`flatSearchSpec`); on success it returns an in-bounds index of an element
equal to the target and the probe path ends with that index; on exhaustion
it returns the not-found signal `-1` and no element of the sequence equals
the target. -/
theorem claim_C4 (arr : List Int) (target : Int) (hs : arr.Sorted (· < ·)) :
    binarySearch arr target = flatSearchSpec arr target
    ∧ ∀ (idx : Int) (path : List Int), binarySearch arr target = (idx, path) →
        ((idx ≠ -1 → 0 ≤ idx ∧ idx < (arr.length : Int) ∧
            arr.getD idx.toNat 0 = target ∧ path.getLast? = some idx)
        ∧ (idx = -1 → ∀ x ∈ arr, x ≠ target)) := by
  refine ⟨binarySearch_eq_flatSearchSpec arr target, ?_⟩
  intro idx path heq
  constructor
  · intro hne
    exact binarySearchLoop_success arr target
      (((arr.length : Int) - 1) + 1 - 0).toNat 0 ((arr.length : Int) - 1) []
      idx path rfl (le_refl 0) (by omega) heq hne
  · intro hm1
    refine binarySearchLoop_failure arr target hs
      (((arr.length : Int) - 1) + 1 - 0).toNat 0 ((arr.length : Int) - 1) []
      rfl (le_refl 0) (by omega) (fun j hj _ => by omega) ?_
    have heq1 : binarySearchLoop arr target 0 ((arr.length : Int) - 1) []
        = (idx, path) := heq
    rw [heq1, hm1]

theorem claim_C4_witness :
    (0 : Int) ≤ 1 ∧ (1 : Int) < (([1, 2] : List Int).length : Int)
    ∧ ([1, 2] : List Int).getD (1 : Int).toNat 0 = 2
    ∧ ([(1 : Int)]).getLast? = some 1 :=
  ((claim_C4 [1, 2] 2 (by decide)).2 1 [1] binarySearch_eval_pair).1 (by decide)

/-- C5: in a tree state satisfying the representation invariant, searching
for a key that is present returns true and the last node of the recorded
search path carries exactly that key; searching for an absent key returns
false, and on a non-empty tree the last node of the recorded path carries a
different key. -/
theorem claim_C5 (tr : AVLTree) (key : Int)
    (hsort : tr.sortedElements.Sorted (· < ·))
    (hroot : tr.root = buildBalancedTree tr.sortedElements 0
      ((tr.sortedElements.length : Int) - 1)) :
    (key ∈ tr.sortedElements → tr.search key = true ∧
      ((tr.getSearchPath key).map AVLNode.key).getLast? = some key)
    ∧ (key ∉ tr.sortedElements → tr.search key = false ∧
        (tr.root ≠ .nil → ∃ q,
          ((tr.getSearchPath key).map AVLNode.key).getLast? = some q ∧
            q ≠ key)) := by
  have hio : tr.root.inorder = tr.sortedElements := by
    rw [hroot]
    exact buildBalancedTree_inorder_full _
  have hbst : isBST tr.root := isBST_of_sorted (by rw [hio]; exact hsort)
  have hpath := searchPathFrom_last hbst key
  constructor
  · intro hmem
    have hmem1 : key ∈ tr.root.inorder := by rw [hio]; exact hmem
    exact ⟨(searchBST_iff_mem hbst key).2 hmem1, hpath.1 hmem1⟩
  · intro hmem
    have hmem1 : key ∉ tr.root.inorder := by rw [hio]; exact hmem
    exact ⟨searchBST_eq_false hbst key hmem1, fun hne => hpath.2 hmem1 hne⟩

theorem claim_C5_witness :
    (⟨buildBalancedTree [2, 5] 0 ((([2, 5] : List Int).length : Int) - 1),
        [2, 5]⟩ : AVLTree).search 2 = true
    ∧ (⟨buildBalancedTree [2, 5] 0 ((([2, 5] : List Int).length : Int) - 1),
        [2, 5]⟩ : AVLTree).search 3 = false :=
  ⟨((claim_C5 _ 2 (by decide) rfl).1 (by decide)).1,
   ((claim_C5 _ 3 (by decide) rfl).2 (by decide)).1⟩

/-- C6: insert is idempotent — for every starting state and key,
inserting the same key twice yields exactly the same state (same
sortedElements vector and structurally identical rebuilt tree) as inserting
it once. -/
theorem claim_C6 (t : AVLTree) (k : Int) :
    (t.insert k).insert k = t.insert k := by
  simp only [AVLTree.insert, insertKey_idem]

/-- C7 as stated is false: inserting an already-present key is a no-op, so
the subsequent remove deletes the key that was present before the pair of
operations.  Concretely, from the state holding exactly key 5, insert 5
followed by remove 5 empties the tree instead of restoring it. -/
theorem claim_C7_counterexample :
    ¬ (((AVLTree.empty.insert 5).insert 5).remove 5 = AVLTree.empty.insert 5) := by
  intro h
  have h2 := congrArg AVLTree.sortedElements h
  simp [AVLTree.insert, AVLTree.remove, AVLTree.empty, insertKey, deleteKey]
    at h2

/-- C7 (amended): for every state satisfying the representation invariant
(root is the balanced rebuild of the vector, as in every reachable state)
and every key `k` NOT already present, insert `k` followed by remove `k`
restores the prior state exactly. -/
theorem claim_C7_amended (t : AVLTree) (k : Int) (hk : k ∉ t.sortedElements)
    (hroot : t.root = buildBalancedTree t.sortedElements 0
      ((t.sortedElements.length : Int) - 1)) :
    (t.insert k).remove k = t := by
  obtain ⟨rt, s⟩ := t
  simp only at hk hroot
  subst hroot
  simp only [AVLTree.insert, AVLTree.remove, deleteKey_insertKey hk]
  split
  · next he =>
    have hnil : s = [] := by rwa [List.isEmpty_iff] at he
    subst hnil
    rw [AVLTree.mk.injEq]
    exact ⟨(buildBalancedTree_nil [] (by norm_num)).symm, rfl⟩
  · rfl

theorem claim_C7_amended_witness :
    ((⟨buildBalancedTree [7] 0 ((([7] : List Int).length : Int) - 1),
        [7]⟩ : AVLTree).insert 5).remove 5
      = ⟨buildBalancedTree [7] 0 ((([7] : List Int).length : Int) - 1), [7]⟩ :=
  claim_C7_amended _ 5 (by decide) rfl

/-- C8: no operation signals an error — on an invariant-satisfying state,
inserting a key already present leaves the state (vector and tree)
unchanged, removing an absent key leaves the state unchanged, and searching
for an absent key merely returns false. -/
theorem claim_C8 (t : AVLTree) (k : Int)
    (hsort : t.sortedElements.Sorted (· < ·))
    (hroot : t.root = buildBalancedTree t.sortedElements 0
      ((t.sortedElements.length : Int) - 1)) :
    (k ∈ t.sortedElements → t.insert k = t)
    ∧ (k ∉ t.sortedElements → t.remove k = t)
    ∧ (k ∉ t.sortedElements → t.search k = false) := by
  refine ⟨?_, ?_, ?_⟩
  · intro hm
    obtain ⟨rt, s⟩ := t
    simp only at hsort hroot hm
    subst hroot
    simp only [AVLTree.insert, insertKey_of_mem hsort hm]
  · intro hm
    obtain ⟨rt, s⟩ := t
    simp only at hsort hroot hm
    subst hroot
    simp only [AVLTree.remove, deleteKey_of_not_mem hm]
    split
    · next he =>
      have hnil : s = [] := by rwa [List.isEmpty_iff] at he
      subst hnil
      rw [AVLTree.mk.injEq]
      exact ⟨(buildBalancedTree_nil [] (by norm_num)).symm, rfl⟩
    · rfl
  · intro hm
    have hio : t.root.inorder = t.sortedElements := by
      rw [hroot]
      exact buildBalancedTree_inorder_full _
    have hbst : isBST t.root := isBST_of_sorted (by rw [hio]; exact hsort)
    exact searchBST_eq_false hbst k (by rw [hio]; exact hm)

theorem claim_C8_witness :
    (⟨buildBalancedTree [2] 0 ((([2] : List Int).length : Int) - 1),
        [2]⟩ : AVLTree).insert 2
      = ⟨buildBalancedTree [2] 0 ((([2] : List Int).length : Int) - 1), [2]⟩
    ∧ (⟨buildBalancedTree [2] 0 ((([2] : List Int).length : Int) - 1),
        [2]⟩ : AVLTree).remove 5
      = ⟨buildBalancedTree [2] 0 ((([2] : List Int).length : Int) - 1), [2]⟩
    ∧ (⟨buildBalancedTree [2] 0 ((([2] : List Int).length : Int) - 1),
        [2]⟩ : AVLTree).search 5 = false :=
  ⟨(claim_C8 _ 2 (by decide) rfl).1 (by decide),
   (claim_C8 _ 5 (by decide) rfl).2.1 (by decide),
   (claim_C8 _ 5 (by decide) rfl).2.2 (by decide)⟩

/-- C9: on the empty tree, `getSearchPath` returns the empty sequence and
`search` returns false for every key, so the last-key rule is inapplicable;
the driving code's found-check (which tests non-emptiness before comparing
the last key) therefore reports not-found. -/
theorem claim_C9 (k : Int) :
    AVLTree.empty.getSearchPath k = [] ∧ AVLTree.empty.search k = false
    ∧ driverFound AVLTree.empty k = false :=
  ⟨rfl, rfl, rfl⟩

/-- C10: every index probed by the flat binary search is in bounds
(`0 ≤ mid < length`), and on the empty sequence the search terminates
immediately with the not-found signal `-1` and an empty probe path. -/
theorem claim_C10 (arr : List Int) (target : Int) :
    (∀ i ∈ (binarySearch arr target).2, 0 ≤ i ∧ i < (arr.length : Int))
    ∧ binarySearch ([] : List Int) target = (-1, []) := by
  constructor
  · exact binarySearchLoop_bounds arr target
      (((arr.length : Int) - 1) + 1 - 0).toNat 0 ((arr.length : Int) - 1) []
      rfl (le_refl 0) (by omega) (fun i hi => absurd hi (List.not_mem_nil i))
  · show binarySearchLoop [] target 0 ((([] : List Int).length : Int) - 1) []
      = (-1, [])
    rw [binarySearchLoop_unfold, if_neg (by norm_num)]

theorem claim_C10_witness :
    0 ≤ (0 : Int) ∧ (0 : Int) < (([5] : List Int).length : Int) := by
  apply (claim_C10 [5] 5).1 0
  rw [binarySearch_eval_single]
  exact List.mem_singleton.2 rfl
